import Mathlib


/-!
Verification development for the zorex-app repository.

The repository has two algorithmic cores:
  * `src/answer_pipeline.py` — narrative extraction (fuzzy matching via
    difflib.SequenceMatcher, sentence splitting, mechanism extraction,
    narrative assembly);
  * `src/resources_qa.py` — keyword retrieval over an indexed page corpus
    (search, snippet, context window, highlighting).

The Python code is shallowly embedded below.  Strings are modelled as
`List Char` / `String`; the ASCII-range behaviour of `str.lower`,
`str.upper`, `str.islower`, `str.isupper`, `\s`, `\w`, `[A-Z]`, `[a-z]`
is used (all string constants in the source are ASCII).  Python's
`list.sort` is a stable sort; it is embedded as a stable insertion sort,
which computes the same list.  Regular expressions appearing in the
source are fixed patterns; each is embedded by a dedicated scanner that
follows the backtracking semantics of `re` for that pattern.
-/

/-! ### Generic character and list-of-char helpers (Python `str` on ASCII) -/

/-- Python regex `\s` on ASCII: space, tab, newline, carriage return,
vertical tab, form feed (also the class stripped by `str.strip()` /
split by `str.split()`). -/
def pyIsSpace (c : Char) : Bool :=
  c = ' ' || c = '\t' || c = '\n' || c = '\r' || c = '\x0b' || c = '\x0c'

/-- ASCII `[a-z]` (Python `str.islower` on the ASCII range). -/
def isLowerAZ (c : Char) : Bool := 'a' ≤ c && c ≤ 'z'

/-- ASCII `[A-Z]` (Python `str.isupper` on the ASCII range). -/
def isUpperAZ (c : Char) : Bool := 'A' ≤ c && c ≤ 'Z'

/-- Python regex `\w` on ASCII: letters, digits, underscore. -/
def pyIsWordChar (c : Char) : Bool := c.isAlphanum || c = '_'

/-- Python `str.lower` (ASCII range). -/
def lowerL (l : List Char) : List Char := l.map Char.toLower

/-- Python `str.strip()`: drop leading and trailing whitespace. -/
def stripL (l : List Char) : List Char :=
  ((l.dropWhile pyIsSpace).reverse.dropWhile pyIsSpace).reverse

/-- Maximal runs of characters satisfying `p`, in order (used for
`str.split()` with `p = not whitespace` and for regex `\b\w+\b`
tokenisation with `p = word char`).  `acc` is the current run, reversed. -/
def runsByAux (p : Char → Bool) : List Char → List Char → List (List Char)
  | acc, [] => if acc.isEmpty then [] else [acc.reverse]
  | acc, c :: cs =>
      if p c then runsByAux p (c :: acc) cs
      else if acc.isEmpty then runsByAux p [] cs
      else acc.reverse :: runsByAux p [] cs

/-- Maximal runs of characters satisfying `p`. -/
def runsBy (p : Char → Bool) (l : List Char) : List (List Char) :=
  runsByAux p [] l

/-- Python `str.split()` (split on whitespace runs, no empty words). -/
def wordsL (l : List Char) : List (List Char) :=
  runsBy (fun c => !pyIsSpace c) l

/-- Python `' '.join(words)`. -/
def joinWordsL : List (List Char) → List Char
  | [] => []
  | [w] => w
  | w :: ws => w ++ ' ' :: joinWordsL ws

/-- Python `pat in s` (substring containment). -/
def containsL (pat : List Char) : List Char → Bool
  | [] => pat.isEmpty
  | c :: cs => pat.isPrefixOf (c :: cs) || containsL pat cs

/-- Python `s.find(pat)` as an `Option` (first index of `pat` in `s`). -/
def findSubAux (pat : List Char) : List Char → Nat → Option Nat
  | [], i => if pat.isEmpty then some i else none
  | c :: cs, i => if pat.isPrefixOf (c :: cs) then some i else findSubAux pat cs (i + 1)

/-- Python `s.find(pat)` as an `Option`. -/
def findSub (pat l : List Char) : Option Nat := findSubAux pat l 0

/-- Fuel-driven scanner for Python `s.count(pat)` with a non-empty
pattern: non-overlapping occurrences, scanning left to right and
skipping a whole match once found. -/
def countSubGo (pat : List Char) : Nat → List Char → Nat
  | 0, _ => 0
  | _ + 1, [] => 0
  | f + 1, c :: cs =>
      if pat.isPrefixOf (c :: cs) then 1 + countSubGo pat f (cs.drop (pat.length - 1))
      else countSubGo pat f cs

/-- Python `s.count(pat)`; for an empty pattern Python returns `len(s)+1`. -/
def countSub (pat l : List Char) : Nat :=
  if pat.isEmpty then l.length + 1 else countSubGo pat l.length l

/-- Scanner for Python `re.sub(r'\s+', ' ', text)`: every maximal
whitespace run is replaced by a single space.  `inRun` records whether
the previous character was part of a whitespace run already emitted. -/
def collapseWsGo : Bool → List Char → List Char
  | _, [] => []
  | inRun, c :: cs =>
      if pyIsSpace c then
        if inRun then collapseWsGo true cs else ' ' :: collapseWsGo true cs
      else c :: collapseWsGo false cs

/-- Python `re.sub(r'\s+', ' ', text)`. -/
def collapseWs (l : List Char) : List Char := collapseWsGo false l

/-- Sentence-terminator class of the source: regex `[.!?]`. -/
def isSepChar (c : Char) : Bool := c = '.' || c = '!' || c = '?'

/-- Scanner for Python `re.split(r'[.!?]+', text)`: pieces between
maximal terminator runs, keeping empty pieces at the ends exactly as
`re.split` does.  `acc` is the current piece, reversed; `inSep` records
whether we are inside a terminator run. -/
def splitSepsGo : List Char → Bool → List Char → List (List Char)
  | acc, _, [] => [acc.reverse]
  | acc, inSep, c :: cs =>
      if isSepChar c then
        if inSep then splitSepsGo acc true cs
        else acc.reverse :: splitSepsGo [] true cs
      else splitSepsGo (c :: acc) false cs

/-- Python `re.split(r'[.!?]+', text)`. -/
def splitSeps (l : List Char) : List (List Char) := splitSepsGo [] false l

/-- Python code-point lexicographic order on strings (as lists). -/
def charListLt : List Char → List Char → Bool
  | [], [] => false
  | [], _ :: _ => true
  | _ :: _, [] => false
  | a :: as, b :: bs => decide (a < b) || (a = b && charListLt as bs)

/-! ### Stable sorting (Python `list.sort`)

Python `list.sort(key=k, reverse=True)` is a stable descending sort.
A stable sort is uniquely determined by the order `ge` and the input,
so it is embedded as a stable insertion sort: an element is inserted
in front of the first earlier-inserted element it is `ge`-related to,
hence in front of all equal elements that occurred later in the input. -/

/-- Insert `x` before the first element `y` with `ge x y`. -/
def insertGe (ge : α → α → Bool) (x : α) : List α → List α
  | [] => [x]
  | y :: ys => if ge x y then x :: y :: ys else y :: insertGe ge x ys

/-- Stable sort placing `ge`-larger elements first; ties keep input order. -/
def sortGe (ge : α → α → Bool) : List α → List α
  | [] => []
  | x :: xs => insertGe ge x (sortGe ge xs)

/-! ### Embedding of `src/resources_qa.py` (class `ResourcesQA`) -/

/-- One record of the manuals index (`self.index` entries: dicts with
keys `file`, `page`, `text`). -/
structure IndexedPage where
  file : String
  page : Int
  text : String
deriving DecidableEq, Repr

/-- One search result dict built by `ResourcesQA.search`. -/
structure SearchResult where
  file : String
  page : Int
  text : String
  snippet : String
  context : String
  keywords : List String
  score : Nat
deriving DecidableEq, Repr

/-- The `stop_words` set of `ResourcesQA.search`. -/
def stop_words : List String :=
  ["the", "a", "an", "and", "or", "but", "in", "on", "at", "to", "for",
   "of", "with", "is", "are", "was", "were", "what", "how", "why", "when",
   "where", "who", "which", "do", "does", "did", "can", "could", "should"]

/-- Keyword extraction of `ResourcesQA.search` (lines 19-21): lowercase
the question, tokenise with `re.findall(r'\b\w+\b', ...)` (maximal runs
of word characters), drop stop words and tokens of length at most 2. -/
def extractKeywords (question : String) : List String :=
  ((runsBy pyIsWordChar (lowerL question.data)).map (fun w => String.mk w)).filter
    (fun w => !stop_words.contains w && w.length > 2)

/-- Keyword-occurrence score of `search` / `_extract_relevant_snippet`:
`sum(lower_text.count(kw) for kw in keywords)` accumulated left to
right. -/
def kwScore (keywords : List String) (lowerText : List Char) : Nat :=
  keywords.foldl (fun acc kw => acc + countSub kw.data lowerText) 0

/-- The scored naive sentences of `_extract_relevant_snippet`
(lines 59-67): split the page text on `[.!?]+`, score each piece by
total keyword occurrences in its lowercase form, and keep
`(score, piece.strip())` for pieces with a positive score. -/
def scoredSentences (text : String) (keywords : List String) : List (Nat × String) :=
  (splitSeps text.data).filterMap (fun sent =>
    let score := kwScore keywords (lowerL sent)
    if score > 0 then some (score, String.mk (stripL sent)) else none)

/-- Descending order used by `scored_sentences.sort(reverse=True)`:
Python compares the `(score, sentence)` tuples lexicographically, so
ties on the score are broken by the sentence string, larger first. -/
def tupGe (a b : Nat × String) : Bool :=
  !(a.1 < b.1 || (a.1 = b.1 && charListLt a.2.data b.2.data))

/-- The greedy extension loop of `_extract_relevant_snippet`
(lines 86-93): append further sentences in sorted order while the word
budget allows, stopping at the first overflow (`break`). -/
def snippetExtend (maxWords : Nat) : List (Nat × String) → String → Nat → String
  | [], snippet, _ => snippet
  | p :: rest, snippet, wordCount =>
      let nextWords := (wordsL p.2.data).length
      if wordCount + nextWords ≤ maxWords then
        snippetExtend maxWords rest (snippet ++ " " ++ p.2) (wordCount + nextWords)
      else snippet

/-- Embedding of `ResourcesQA._extract_relevant_snippet(text, keywords, max_words=80)`. -/
def extract_relevant_snippet (text : String) (keywords : List String)
    (max_words : Nat := 80) : String :=
  let scored := scoredSentences text keywords
  if scored.isEmpty then
    String.mk (joinWordsL ((wordsL text.data).take max_words)) ++ "..."
  else
    let sorted := sortGe tupGe scored
    let best := (sorted.headD (0, "")).2
    let ws := wordsL best.data
    if ws.length > max_words then
      String.mk (joinWordsL (ws.take max_words)) ++ "..."
    else
      snippetExtend max_words ((sorted.drop 1).take 2) best ws.length

/-- First-keyword position of `_extract_context` (lines 100-106):
sequential minimum over `text_lower.find(kw)`, ignoring misses;
`none` plays the role of `float('inf')`. -/
def firstKwPos (lowerText : List Char) (keywords : List String) : Option Nat :=
  keywords.foldl (fun acc kw =>
    match findSub kw.data lowerText with
    | none => acc
    | some pos =>
        match acc with
        | none => some pos
        | some best => if pos < best then some pos else some best) none

/-- Word start offsets of `_extract_context` (lines 114-120): position
`i` paired with the running offset `sum(len(word)+1)` over earlier
words (the source reconstructs offsets assuming single separators). -/
def wordPositions (ws : List (List Char)) : List (Nat × Nat) :=
  (ws.foldl (fun st w => (st.1 ++ [(st.1.length, st.2)], st.2 + w.length + 1)) ([], 0)).1

/-- Keyword word-index search of `_extract_context` (lines 123-127):
first listed word whose offset is at least the keyword position, and 0
if the scan never fires. -/
def kwWordIdx (positions : List (Nat × Nat)) (kwPos : Nat) : Nat :=
  match positions.find? (fun ip => ip.2 ≥ kwPos) with
  | some ip => ip.1
  | none => 0

/-- Embedding of `ResourcesQA._extract_context(text, keywords, context_words=200)`. -/
def extract_context (text : String) (keywords : List String)
    (context_words : Nat := 200) : String :=
  match firstKwPos (lowerL text.data) keywords with
  | none => String.mk (joinWordsL ((wordsL text.data).take context_words)) ++ "..."
  | some kwPos =>
      let ws := wordsL text.data
      let idx := kwWordIdx (wordPositions ws) kwPos
      let startIdx := idx - 100
      let endIdx := min ws.length (idx + 100)
      let context := String.mk (joinWordsL ((ws.take endIdx).drop startIdx))
      let context := if startIdx > 0 then "..." ++ context else context
      let context := if endIdx < ws.length then context ++ "..." else context
      context

/-- The candidate results of `ResourcesQA.search` (lines 27-51), in
index order: every page whose keyword-occurrence score is positive,
with its snippet, context and the query keywords. -/
def searchCandidates (keywords : List String) (index : List IndexedPage) :
    List SearchResult :=
  index.filterMap (fun page =>
    if kwScore keywords (lowerL page.text.data) > 0 then
      some { file := page.file, page := page.page, text := page.text,
             snippet := extract_relevant_snippet page.text keywords,
             context := extract_context page.text keywords,
             keywords := keywords,
             score := kwScore keywords (lowerL page.text.data) }
    else none)

/-- Descending-score order of `results.sort(key=lambda x: x['score'], reverse=True)`. -/
def scoreGe (a b : SearchResult) : Bool := b.score ≤ a.score

/-- Embedding of `ResourcesQA.search(question, max_results=5)` over an explicit index. -/
def search (question : String) (index : List IndexedPage)
    (max_results : Nat := 5) : List SearchResult :=
  let keywords := extractKeywords question
  if keywords.isEmpty then []
  else (sortGe scoreGe (searchCandidates keywords index)).take max_results

/-- Fuel-driven scanner for one pass of `ResourcesQA.highlight_keywords`
(a compiled `re.escape(kw)` pattern with `re.IGNORECASE`, substituted by
`'**' + match + '**'`): at each position, if the keyword matches
case-insensitively, wrap the matched original characters and continue
after them; otherwise advance one character. -/
def hlSubGo (kwLower : List Char) : Nat → List Char → List Char
  | 0, rest => rest
  | _ + 1, [] => []
  | f + 1, c :: cs =>
      if kwLower.isPrefixOf (lowerL (c :: cs)) then
        '*' :: '*' :: ((c :: cs).take kwLower.length ++ '*' :: '*' ::
          hlSubGo kwLower f ((c :: cs).drop kwLower.length))
      else c :: hlSubGo kwLower f cs

/-- Python `re.sub` with an empty pattern inserts the replacement at
every position, including the end. -/
def hlSubEmpty : List Char → List Char
  | [] => ['*', '*', '*', '*']
  | c :: cs => '*' :: '*' :: '*' :: '*' :: c :: hlSubEmpty cs

/-- One keyword pass of `highlight_keywords`. -/
def hlSub (kw : List Char) (l : List Char) : List Char :=
  if kw.isEmpty then hlSubEmpty l else hlSubGo (lowerL kw) l.length l

/-- Embedding of `ResourcesQA.highlight_keywords(text, keywords)`: keywords applied
in order, each pass operating on the output of the previous one. -/
def highlight_keywords (text : String) (keywords : List String) : String :=
  keywords.foldl (fun acc kw => String.mk (hlSub kw.data acc.data)) text

/-- The visible (marker-free) content of a highlighted string: the
emphasis markers are the inserted `*` characters. -/
def stripStars (l : List Char) : List Char := l.filter (fun c => c ≠ '*')

/-! ### Embedding of `src/answer_pipeline.py` — text processing -/

/-- Generic fuel-driven scanner for Python `str.replace(pat, repl)`
with a non-empty literal pattern (used for `replace('<PERIOD>', '.')`). -/
def replaceSubGo (pat repl : List Char) : Nat → List Char → List Char
  | 0, rest => rest
  | _ + 1, [] => []
  | f + 1, c :: cs =>
      if pat.isPrefixOf (c :: cs) then repl ++ replaceSubGo pat repl f ((c :: cs).drop pat.length)
      else c :: replaceSubGo pat repl f cs

/-- Python `str.replace(pat, repl)` for a non-empty literal pattern. -/
def replaceSub (pat repl l : List Char) : List Char := replaceSubGo pat repl l.length l

/-- The regulatory boilerplate cut in `_clean_text` (line 66): the
pattern `The U\.S\. Food and Drug Administration.*` with `re.I` and
`re.DOTALL` truncates the text at the first case-insensitive occurrence
of the literal phrase (the trailing `.*` swallows the rest). -/
def fdaPhrase : List Char := "The U.S. Food and Drug Administration".data

/-- Embedding of `_clean_text(text)` (lines 64-67): collapse whitespace, truncate at
the regulatory phrase, strip. -/
def clean_text (text : String) : List Char :=
  let t := collapseWs text.data
  let t := match findSub (lowerL fdaPhrase) (lowerL t) with
    | none => t
    | some p => t.take p
  stripL t

/-- The abbreviation list of `_split_sentences` (line 71), in source
order.  The entries `i.e` and `e.g` contain a bare `.`, which inside
the pattern `rf'\b{abbrev}\.'` is the regex wildcard. -/
def abbrevs : List String :=
  ["Dr", "Mr", "Mrs", "Ms", "Ph", "B", "D", "O", "U", "S", "vs", "etc", "i.e", "e.g"]

/-- Match the pattern `{abbrev}\.` at the head of `s` under
`re.IGNORECASE`: a `.` inside `abbrev` matches any character except a
newline, other characters match case-insensitively, and a literal `.`
must follow.  Returns the remainder after the match. -/
def abbrevMatch : List Char → List Char → Option (List Char)
  | [], s =>
      match s with
      | '.' :: rest => some rest
      | _ => none
  | p :: ps, c :: cs =>
      if (if p = '.' then c ≠ '\n' else Char.toLower c = Char.toLower p) then abbrevMatch ps cs
      else none
  | _ :: _, [] => none

/-- Fuel-driven scanner for `re.sub(rf'\b{abbrev}\.', f'{abbrev}<PERIOD>',
text, flags=re.IGNORECASE)` (line 73): at a word boundary, a match is
replaced by the abbreviation as listed followed by `<PERIOD>`, and the
scan resumes after the matched text (whose last character, `.`, is a
non-word character, so the next position is again at a boundary). -/
def abbrevSubGo (ab : List Char) : Nat → Bool → List Char → List Char
  | 0, _, rest => rest
  | _ + 1, _, [] => []
  | f + 1, bnd, c :: cs =>
      if bnd then
        match abbrevMatch ab (c :: cs) with
        | some rest =>
            ab ++ ('<' :: 'P' :: 'E' :: 'R' :: 'I' :: 'O' :: 'D' :: '>' :: []) ++
              abbrevSubGo ab f true rest
        | none => c :: abbrevSubGo ab f (!pyIsWordChar c) cs
      else c :: abbrevSubGo ab f (!pyIsWordChar c) cs

/-- One abbreviation-protection pass of `_split_sentences`. -/
def abbrevSub (ab : List Char) (l : List Char) : List Char :=
  abbrevSubGo ab l.length true l

/-- All abbreviation-protection passes, in source order (sequential
`re.sub` calls over the already-rewritten text). -/
def protectAbbrevs (l : List Char) : List Char :=
  abbrevs.foldl (fun acc ab => abbrevSub ab.data acc) l

/-- The restored, stripped sentence pieces of `_split_sentences`
(lines 74-77), before the length filter. -/
def sentencePieces (text : String) : List String :=
  (splitSeps (protectAbbrevs (clean_text text))).map
    (fun p => String.mk (stripL (replaceSub ('<' :: 'P' :: 'E' :: 'R' :: 'I' :: 'O' :: 'D' :: '>' :: []) ['.'] p)))

/-- Embedding of `_split_sentences(text)` (lines 69-80). -/
def split_sentences (text : String) : List String :=
  (sentencePieces text).filter (fun s => s.length > 20 && (wordsL s.data).length ≥ 3)

/-! ### Embedding of `_extract_key_mechanism` (lines 118-180) -/

/-- One repetition of `[A-Z][a-z]+\s+` at the head of a list: an ASCII
uppercase letter, a maximal nonempty run of ASCII lowercase letters,
then a maximal nonempty whitespace run (maximality is forced here: a
lowercase letter cannot serve as `\s` and whitespace cannot serve as
`[A-Z]` or the `[a-z]` lookahead).  Returns the remainder. -/
def repParse : List Char → Option (List Char)
  | [] => none
  | c :: cs =>
      if isUpperAZ c then
        let lows := cs.takeWhile isLowerAZ
        let r1 := cs.dropWhile isLowerAZ
        if lows.isEmpty then none
        else
          let ws := r1.takeWhile pyIsSpace
          let r2 := r1.dropWhile pyIsSpace
          if ws.isEmpty then none else some r2
      else none

/-- Does the list start with an ASCII lowercase letter (the `(?=[a-z])`
lookahead)? -/
def startsLowerAZ : List Char → Bool
  | [] => false
  | c :: _ => isLowerAZ c

/-- Does the list start with an ASCII uppercase letter? -/
def startsUpperAZ : List Char → Bool
  | [] => false
  | c :: _ => isUpperAZ c

/-- Scanner for `re.sub(r'^(?:[A-Z][a-z]+\s+){1,4}(?=[a-z])', '', sent)` (line 131):
the greedy `{1,4}` tries four repetitions down to one, accepting the
first count whose following character is lowercase, and deletes the
matched prefix; otherwise the sentence is unchanged. -/
def headerStrip1 (l : List Char) : List Char :=
  match repParse l with
  | none => l
  | some r1 =>
      match repParse r1 with
      | none => if startsLowerAZ r1 then r1 else l
      | some r2 =>
          match repParse r2 with
          | none =>
              if startsLowerAZ r2 then r2
              else if startsLowerAZ r1 then r1 else l
          | some r3 =>
              match repParse r3 with
              | none =>
                  if startsLowerAZ r3 then r3
                  else if startsLowerAZ r2 then r2
                  else if startsLowerAZ r1 then r1 else l
              | some r4 =>
                  if startsLowerAZ r4 then r4
                  else if startsLowerAZ r3 then r3
                  else if startsLowerAZ r2 then r2
                  else if startsLowerAZ r1 then r1 else l

/-- Match `\s+The\s+` at the head of a list (both whitespace runs
maximal and nonempty, `The` literal and case-sensitive); returns the
remainder after the trailing run. -/
def theTry (l : List Char) : Option (List Char) :=
  let ws1 := l.takeWhile pyIsSpace
  let r1 := l.dropWhile pyIsSpace
  if ws1.isEmpty then none
  else
    match r1 with
    | 'T' :: 'h' :: 'e' :: r2 =>
        let ws2 := r2.takeWhile pyIsSpace
        let r3 := r2.dropWhile pyIsSpace
        if ws2.isEmpty then none else some r3
    | _ => none

/-- Scan for the earliest start of `\s+The\s+` (the lazy `.*?`, which
cannot cross a newline). -/
def theScan : List Char → Option (List Char)
  | [] => none
  | c :: cs =>
      match theTry (c :: cs) with
      | some r => some r
      | none => if c = '\n' then none else theScan cs

/-- Scanner for `re.sub(r'^.*?\s+The\s+', 'The ', sent_clean)` (line 132). -/
def headerStrip2 (l : List Char) : List Char :=
  match theScan l with
  | none => l
  | some r => 'T' :: 'h' :: 'e' :: ' ' :: r

/-- The header-cleaning of `_extract_key_mechanism` (lines 131-136):
the two rewrites, then capitalisation of a lowercase first letter. -/
def cleanSentence (sent : List Char) : List Char :=
  let c2 := headerStrip2 (headerStrip1 sent)
  match c2 with
  | c :: cs => if isLowerAZ c then c.toUpper :: cs else c :: cs
  | [] => []

/-- The kill-shot list of `_extract_key_mechanism` (line 142). -/
def kill_shots : List String :=
  ["this product is not intended", "not intended to diagnose",
   "food and drug administration", "product specifications",
   "formulation details", "dosing protocols", "dosing protocol",
   "clinical guide", "product profile"]

/-- Strong action verbs (line 152, +3). -/
def actionWords : List String :=
  ["accumulate", "block", "prevent", "protect", "reduce", "inhibit", "modulate", "addresses"]

/-- Biological terms (line 156, +2). -/
def bioWords : List String :=
  ["cellular", "mitochondrial", "oxidative", "retinal", "macular", "fovea",
   "pigment", "neurotransmitter", "enzyme", "proteolytic", "inflammatory",
   "adrenal", "hpa", "axis", "pituitary", "hypothalamus", "glandular"]

/-- Generic support verbs (line 160, +1). -/
def supportWords : List String :=
  ["support", "maintain", "improve", "enhance", "provide"]

/-- Marketing-fluff penalty phrases (line 164, −2). -/
def fluffWords : List String :=
  ["comprehensive", "professional", "advanced formulation"]

/-- Does `sl` contain any of the listed phrases? -/
def containsAny (words : List String) (sl : List Char) : Bool :=
  words.any (fun w => containsL w.data sl)

/-- The additive tier score with penalties of `_extract_key_mechanism`
(lines 139-168), computed on the lowercase cleaned sentence. -/
def mechScore (sl : List Char) : Int :=
  let score : Int := 0
  let score := score +
    (if containsL ("serving as".data) sl && containsL ("filter".data) sl then 5
     else if containsL ("serving as".data) sl ||
        (containsL ("filter".data) sl && containsL ("blue".data) sl) then 4
     else 0)
  let score := score + (if containsAny actionWords sl then 3 else 0)
  let score := score + (if containsAny bioWords sl then 2 else 0)
  let score := score + (if containsAny supportWords sl then 1 else 0)
  let score := score - (if containsAny fluffWords sl then 2 else 0)
  let score := score - (if sl.count ':' ≥ 2 || sl.count ',' ≥ 5 then 3 else 0)
  score

/-- The surviving `(score, sent_clean)` candidates of
`_extract_key_mechanism` (the `scored` list, lines 123-174), in
sentence order: a naive sentence of at least 8 words is cleaned,
capitalised, discarded on a kill-shot or a non-uppercase first
character, and kept only with score strictly above 1. -/
def mechCandidates (text : String) : List (Int × String) :=
  (splitSeps (collapseWs text.data)).filterMap (fun sentRaw =>
    let sent := stripL sentRaw
    if (wordsL sent).length < 8 then none
    else
      let sc := cleanSentence sent
      let sl := lowerL sc
      if containsAny kill_shots sl then none
      else
        let score := mechScore sl
        if !startsUpperAZ sc then none
        else if score > 1 then some (score, String.mk sc) else none)

/-- Descending order of `scored.sort(reverse=True, key=lambda x: x[0])`:
by score only, stable on sentence order. -/
def mechGe (a b : Int × String) : Bool := b.1 ≤ a.1

/-- Embedding of `_extract_key_mechanism(text)` (lines 118-180). -/
def extract_key_mechanism (text : String) : Option String :=
  match sortGe mechGe (mechCandidates text) with
  | [] => none
  | p :: _ => some p.2

/-! ### Embedding of the mechanism clause of `make_answer` (lines 312-325) -/

/-- Scanner for `re.sub(r'^(?:The combination of|The formula)\s+', '', mech_clean,
flags=re.I)` (line 324): the first alternative whose literal text
matches case-insensitively at the start and is followed by a nonempty
whitespace run is deleted together with that run. -/
def stripLeadPhrase (l : List Char) : List Char :=
  let tryPhrase := fun (phrase : List Char) =>
    if (lowerL phrase).isPrefixOf (lowerL l) then
      let rest := l.drop phrase.length
      let ws := rest.takeWhile pyIsSpace
      if ws.isEmpty then none else some (rest.dropWhile pyIsSpace)
    else none
  match tryPhrase ("The combination of".data) with
  | some r => r
  | none =>
      match tryPhrase ("The formula".data) with
      | some r => r
      | none => l

/-- The portion of the summary string that `make_answer` appends for
the mechanism (lines 312-325 of `src/answer_pipeline.py`): when a
mechanism is present (Python truthiness: not `None` and not empty), it
is stripped, blanked if its first character is not uppercase, the
redundant lead phrase is removed from a nonempty remainder, and the
labelled clause is appended — note that the append is not guarded, so
the label appears even when `mech_clean` was blanked. -/
def mechanism_clause (mechanism : Option String) : String :=
  match mechanism with
  | none => ""
  | some mech =>
      if mech.data.isEmpty then ""
      else
        let mc := stripL mech.data
        let mc := if !mc.isEmpty && !startsUpperAZ mc then [] else mc
        let mc := if !mc.isEmpty then stripLeadPhrase mc else mc
        " <strong>How does it work?</strong> " ++ String.mk mc ++ "."

/-! ### Embedding of `fuzz_ratio` (lines 11-12) via `difflib.SequenceMatcher`

`fuzz_ratio(s1, s2)` is `int(SequenceMatcher(None, s1.lower(), s2.lower())
.ratio() * 100)`.  `SequenceMatcher` with `isjunk=None` has an empty junk
set, and with `autojunk=True` (the default) it purges "popular" elements
from its position table `b2j` when `len(b) >= 200`.  `ratio()` is
`2*M/T` where `M` is the total size of the matching blocks found by
the recursive longest-match decomposition and `T = len(a) + len(b)`.
The quotient is modelled in exact arithmetic, `int(2.0*M/T*100)` as
`(200*M)/T` in `Nat`; at the values arising in the theorems below
(`200*M/T` equal to 100, 40 and 20 exactly) this agrees with the
double-precision computation of CPython. -/

/-- Element access `b[j]` (always used in range below). -/
def nthC (l : List Char) (i : Nat) : Char := l.getD i ' '

/-- Popularity purge of `SequenceMatcher.__chain_b`: with autojunk, for
`len(b) >= 200` an element with more than `len(b)//100 + 1` occurrences
is dropped from `b2j`. -/
def b2jPopular (b : List Char) (c : Char) : Bool :=
  b.length ≥ 200 && b.count c > b.length / 100 + 1

/-- Embedding of `b2j.get(elt, [])`: the ascending list of positions of `c` in `b`,
empty for purged popular elements. -/
def b2jGet (b : List Char) (c : Char) : List Nat :=
  if b2jPopular b c then []
  else (List.range b.length).filter (fun j => nthC b j = c)

/-- State of the main loop of `find_longest_match`: the `j2len` row of
the previous iteration (total function, absent keys are 0, matching
`j2len.get(j-1, 0)`) and the current best block. -/
structure FlmState where
  j2 : Nat → Nat
  bi : Nat
  bj : Nat
  bs : Nat

/-- Inner loop body of `find_longest_match`: for a position `j` of
`a[i]` in `b`, the new run length is `j2len.get(j-1, 0) + 1` (reading
the previous row), recorded in the new row, and the best block is
updated when the run is strictly longer. -/
def flmInner (i : Nat) (old : Nat → Nat) (st : FlmState) (j : Nat) : FlmState :=
  let k := (if j = 0 then 0 else old (j - 1)) + 1
  let nj := fun x => if x = j then k else st.j2 x
  if k > st.bs then ⟨nj, i + 1 - k, j + 1 - k, k⟩ else ⟨nj, st.bi, st.bj, st.bs⟩

/-- One iteration of the main loop of `find_longest_match` for the
outer index `i`: the inner loop runs over the in-range positions of
`a[i]` in `b` (the source skips `j < blo` with `continue` and leaves
the loop at the first `j >= bhi` with `break`; as `b2j` lists are
ascending this is the in-range sublist), reading the previous `j2len`
row and building a fresh one. -/
def flmStep (aL : List Char) (b2 : Char → List Nat) (blo bhi : Nat)
    (st : FlmState) (i : Nat) : FlmState :=
  let js := (b2 (nthC aL i)).filter (fun j => blo ≤ j && j < bhi)
  js.foldl (flmInner i st.j2) ⟨fun _ => 0, st.bi, st.bj, st.bs⟩

/-- Main loop of `find_longest_match` over `i in range(alo, ahi)`. -/
def flmOuter (aL : List Char) (b2 : Char → List Nat) (blo bhi alo ahi : Nat) : FlmState :=
  (List.range' alo (ahi - alo)).foldl (flmStep aL b2 blo bhi) ⟨fun _ => 0, alo, blo, 0⟩

/-- First extension loop: extend the best block backwards over equal
non-junk elements. -/
def extNJBack (aL bL : List Char) (junk : Char → Bool) (alo blo : Nat) :
    Nat → Nat × Nat × Nat → Nat × Nat × Nat
  | 0, st => st
  | f + 1, (bi, bj, bs) =>
      if alo < bi && blo < bj && !junk (nthC bL (bj - 1)) &&
          nthC aL (bi - 1) = nthC bL (bj - 1) then
        extNJBack aL bL junk alo blo f (bi - 1, bj - 1, bs + 1)
      else (bi, bj, bs)

/-- Second extension loop: extend forwards over equal non-junk elements. -/
def extNJFwd (aL bL : List Char) (junk : Char → Bool) (ahi bhi : Nat) :
    Nat → Nat × Nat × Nat → Nat × Nat × Nat
  | 0, st => st
  | f + 1, (bi, bj, bs) =>
      if bi + bs < ahi && bj + bs < bhi && !junk (nthC bL (bj + bs)) &&
          nthC aL (bi + bs) = nthC bL (bj + bs) then
        extNJFwd aL bL junk ahi bhi f (bi, bj, bs + 1)
      else (bi, bj, bs)

/-- Third extension loop: extend backwards over equal junk elements. -/
def extJBack (aL bL : List Char) (junk : Char → Bool) (alo blo : Nat) :
    Nat → Nat × Nat × Nat → Nat × Nat × Nat
  | 0, st => st
  | f + 1, (bi, bj, bs) =>
      if alo < bi && blo < bj && junk (nthC bL (bj - 1)) &&
          nthC aL (bi - 1) = nthC bL (bj - 1) then
        extJBack aL bL junk alo blo f (bi - 1, bj - 1, bs + 1)
      else (bi, bj, bs)

/-- Fourth extension loop: extend forwards over equal junk elements. -/
def extJFwd (aL bL : List Char) (junk : Char → Bool) (ahi bhi : Nat) :
    Nat → Nat × Nat × Nat → Nat × Nat × Nat
  | 0, st => st
  | f + 1, (bi, bj, bs) =>
      if bi + bs < ahi && bj + bs < bhi && junk (nthC bL (bj + bs)) &&
          nthC aL (bi + bs) = nthC bL (bj + bs) then
        extJFwd aL bL junk ahi bhi f (bi, bj, bs + 1)
      else (bi, bj, bs)

/-- Embedding of `SequenceMatcher.find_longest_match(alo, ahi, blo, bhi)`: the main
loop followed by the four extension loops (backward loops can run at
most `bi` steps, forward loops at most `ahi` steps). -/
def find_longest_match (aL bL : List Char) (b2 : Char → List Nat)
    (junk : Char → Bool) (alo ahi blo bhi : Nat) : Nat × Nat × Nat :=
  let m := flmOuter aL b2 blo bhi alo ahi
  let s1 := extNJBack aL bL junk alo blo m.bi (m.bi, m.bj, m.bs)
  let s2 := extNJFwd aL bL junk ahi bhi ahi s1
  let s3 := extJBack aL bL junk alo blo s2.1 s2
  let s4 := extJFwd aL bL junk ahi bhi ahi s3
  s4

/-- Total size of the matching blocks of `get_matching_blocks`: the
longest match splits the ranges and both nonempty sides are decomposed
recursively (the queue of the source traverses exactly this recursion;
merging adjacent blocks does not change the total).  `fuel` bounds the
recursion depth; every recursive call strictly shrinks the range. -/
def matchedSum (aL bL : List Char) (b2 : Char → List Nat) (junk : Char → Bool) :
    Nat → Nat → Nat → Nat → Nat → Nat
  | 0, _, _, _, _ => 0
  | f + 1, alo, ahi, blo, bhi =>
      let m := find_longest_match aL bL b2 junk alo ahi blo bhi
      if m.2.2 = 0 then 0
      else
        (if alo < m.1 && blo < m.2.1 then matchedSum aL bL b2 junk f alo m.1 blo m.2.1 else 0) +
        m.2.2 +
        (if m.1 + m.2.2 < ahi && m.2.1 + m.2.2 < bhi then
          matchedSum aL bL b2 junk f (m.1 + m.2.2) ahi (m.2.1 + m.2.2) bhi else 0)

/-- Embedding of `fuzz_ratio(s1, s2)` (lines 11-12 of `src/answer_pipeline.py`). -/
def fuzz_ratio (s1 s2 : String) : Nat :=
  let aL := lowerL s1.data
  let bL := lowerL s2.data
  let T := aL.length + bL.length
  if T = 0 then 100
  else
    let M := matchedSum aL bL (b2jGet bL) (fun _ => false) (T + 1) 0 aL.length 0 bL.length
    (200 * M) / T

/-! ### Concrete inputs used by the claim theorems -/

/-- Text with a blue-light-filter sentence and an immune-support
competitor (claim C1 scenario). -/
def c1Demo : String :=
  "The product works by serving as a blue-light filter inside the eye. These nutrients support immune health in many different ways every day."

/-- Text whose extracted mechanism starts with the redundant phrase
`The combination of` (claim C2). -/
def c2Demo : String :=
  "combination blah blah The combination of nutrients helps block retinal damage quickly"

/-- Two-page index for the retrieval scenario of claim C3. -/
def c3Pages : List IndexedPage :=
  [⟨"A.pdf", 1, "dosage dosage dosage dosage dosage"⟩, ⟨"B.pdf", 2, "dosage info"⟩]

/-- One-page index for claim C5. -/
def c5Pages : List IndexedPage := [⟨"A.pdf", 1, "alpha beta"⟩]

/-- Page text with two equal-scoring keyword sentences (claim C6). -/
def c6Demo : String := "apple dosage there. zebra dosage here."

/-- Input on which the abbreviation protection of `_split_sentences`
fails (claim C7). -/
def c7BadInput : String :=
  "Supplements help e.g. athletes recover properly after intense training."

/-- Input on which the abbreviation protection succeeds (claim C7). -/
def c7DrInput : String := "We met Dr. Smith at the clinic yesterday."

/-- One-page index and its search result for claim C10. -/
def c10Pages : List IndexedPage := [⟨"A.pdf", 1, "dosage here"⟩]

/-- The search result produced from `c10Pages` for the question `dosage`. -/
def c10Result : SearchResult :=
  ⟨"A.pdf", 1, "dosage here", "dosage here", "dosage here", ["dosage"], 1⟩

/-- The search result built from page A of `c3Pages`. -/
def c3ResultA : SearchResult :=
  ⟨"A.pdf", 1, "dosage dosage dosage dosage dosage",
   "dosage dosage dosage dosage dosage", "dosage dosage dosage dosage dosage",
   ["dosage"], 5⟩

/-- The `(score, sentence)` pair actually selected as `scored_sentences[0]`
after the sort in `_extract_relevant_snippet`. -/
def bestScored (text : String) (keywords : List String) : Nat × String :=
  (sortGe tupGe (scoredSentences text keywords)).headD (0, "")

/-! ### Reflexivity of `fuzz_ratio` (claim C8)

For equal inputs `a = b = l` the main loop of `find_longest_match`
only ever records diagonal blocks, because a common run ending at
`(i, j)` mirrors content between two non-popular stretches of `l` and
the diagonal run ending at `(i, i)` is at least as long and is scanned
no later.  The non-junk extension loops then extend the recorded
diagonal block over the whole (everywhere-equal) diagonal, so the
longest match of the full range is the full range and the matched
total equals the length. -/

/-- Length of the longest chain of inner-loop `j2len` updates that can
end at position `j` when matching `l` against itself: the number of
trailing non-popular characters at `j`. -/
def DD (l : List Char) : Nat → Nat
  | 0 => if b2jPopular l (nthC l 0) then 0 else 1
  | j + 1 => if b2jPopular l (nthC l (j + 1)) then 0 else DD l j + 1

/-- The run length `j2len.get(j-1, 0) + 1` computed by the inner loop. -/
def kOf (old : Nat → Nat) (j : Nat) : Nat :=
  (if j = 0 then 0 else old (j - 1)) + 1

/-- Invariant of the main loop of `find_longest_match` on `a = b = l`,
full range, after processing outer indices `0, ..., m-1`: the best
block is diagonal and in range, dominates every diagonal run seen so
far, and the `j2len` row is bounded by (and on the diagonal equal to)
the trailing non-popular run lengths. -/
def OuterInv (l : List Char) (m : Nat) (st : FlmState) : Prop :=
  st.bi = st.bj ∧ st.bi + st.bs ≤ l.length ∧
  (∀ j, j < m → DD l j ≤ st.bs) ∧
  (∀ x, st.j2 x ≤ DD l x) ∧
  (∀ x, st.j2 x ≤ if m = 0 then 0 else DD l (m - 1)) ∧
  (0 < m → st.j2 (m - 1) = DD l (m - 1))

/-! ### Theorems -/

theorem insertGe_perm (ge : α → α → Bool) (x : α) (l : List α) :
    (insertGe ge x l).Perm (x :: l) := by
  induction l with
  | nil => simp [insertGe]
  | cons y ys ih =>
      by_cases h : ge x y = true
      · simp [insertGe, h]
      · simp only [insertGe, h, if_false]
        exact ((ih.cons y).trans (List.Perm.swap x y ys))

theorem sortGe_perm (ge : α → α → Bool) (l : List α) :
    (sortGe ge l).Perm l := by
  induction l with
  | nil => simp [sortGe]
  | cons x xs ih =>
      exact (insertGe_perm ge x (sortGe ge xs)).trans (ih.cons x)

theorem mem_sortGe {ge : α → α → Bool} {l : List α} {a : α} :
    a ∈ sortGe ge l ↔ a ∈ l :=
  (sortGe_perm ge l).mem_iff

theorem insertGe_pairwise (ge : α → α → Bool)
    (total : ∀ a b, ge a b = true ∨ ge b a = true)
    (trans : ∀ a b c, ge a b = true → ge b c = true → ge a c = true)
    (x : α) (l : List α) (hl : l.Pairwise (fun a b => ge a b = true)) :
    (insertGe ge x l).Pairwise (fun a b => ge a b = true) := by
  induction l with
  | nil => simp [insertGe]
  | cons y ys ih =>
      rcases List.pairwise_cons.mp hl with ⟨hy, hys⟩
      by_cases h : ge x y = true
      · simp only [insertGe, h, if_true]
        refine List.pairwise_cons.mpr ⟨?_, hl⟩
        intro b hb
        rcases List.mem_cons.mp hb with rfl | hb
        · exact h
        · exact trans x y b h (hy b hb)
      · have hxy : ge y x = true := (total x y).resolve_left h
        simp only [insertGe, h, if_false]
        refine List.pairwise_cons.mpr ⟨?_, ih hys⟩
        intro b hb
        have hbm : b ∈ x :: ys := (insertGe_perm ge x ys).mem_iff.mp hb
        rcases List.mem_cons.mp hbm with rfl | hbm
        · exact hxy
        · exact hy b hbm

theorem sortGe_pairwise (ge : α → α → Bool)
    (total : ∀ a b, ge a b = true ∨ ge b a = true)
    (trans : ∀ a b c, ge a b = true → ge b c = true → ge a c = true)
    (l : List α) :
    (sortGe ge l).Pairwise (fun a b => ge a b = true) := by
  induction l with
  | nil => simp [sortGe]
  | cons x xs ih => exact insertGe_pairwise ge total trans x (sortGe ge xs) ih

theorem insertGe_filter_of_pos {ge : α → α → Bool} {p : α → Bool}
    (hp : ∀ a b, p a = true → p b = true → ge a b = true)
    {x : α} (hx : p x = true) (l : List α) :
    (insertGe ge x l).filter p = x :: l.filter p := by
  induction l with
  | nil => simp [insertGe, hx]
  | cons y ys ih =>
      by_cases h : ge x y = true
      · simp [insertGe, h, hx]
      · have hy : p y = false := by
          cases hpy : p y
          · rfl
          · exact absurd (hp x y hx hpy) h
        simp [insertGe, h, hy, ih]

theorem insertGe_filter_of_neg {ge : α → α → Bool} {p : α → Bool}
    {x : α} (hx : p x = false) (l : List α) :
    (insertGe ge x l).filter p = l.filter p := by
  induction l with
  | nil => simp [insertGe, hx]
  | cons y ys ih =>
      by_cases h : ge x y = true
      · simp [insertGe, h, hx]
      · cases hy : p y <;> simp [insertGe, h, hy, ih]

/-- Stability of the embedded sort: the subsequence of elements in any
`ge`-equivalence class (any `p` on which `ge` always holds) is exactly
the subsequence they formed in the input. -/
theorem sortGe_filter_stable (ge : α → α → Bool) (p : α → Bool)
    (hp : ∀ a b, p a = true → p b = true → ge a b = true)
    (l : List α) : (sortGe ge l).filter p = l.filter p := by
  induction l with
  | nil => simp [sortGe]
  | cons x xs ih =>
      cases hx : p x
      · simpa [sortGe, hx, insertGe_filter_of_neg hx] using ih
      · simpa [sortGe, hx, insertGe_filter_of_pos hp hx] using ih

theorem sortGe_head_max (ge : α → α → Bool)
    (total : ∀ a b, ge a b = true ∨ ge b a = true)
    (trans : ∀ a b c, ge a b = true → ge b c = true → ge a c = true)
    (l : List α) (x : α) (xs : List α) (h : sortGe ge l = x :: xs) :
    ∀ y ∈ l, ge x y = true := by
  intro y hy
  have hym : y ∈ x :: xs := by
    rw [← h]; exact mem_sortGe.mpr hy
  rcases List.mem_cons.mp hym with rfl | hym
  · rcases total y y with hx | hx
    · exact hx
    · exact hx
  · have hpw := sortGe_pairwise ge total trans l
    rw [h] at hpw
    exact (List.pairwise_cons.mp hpw).1 y hym

/-! ### Highlight marker lemmas (claim C4) -/

theorem stripStars_append (a b : List Char) :
    stripStars (a ++ b) = stripStars a ++ stripStars b := by
  simp [stripStars]

theorem stripStars_hlSubEmpty (l : List Char) :
    stripStars (hlSubEmpty l) = stripStars l := by
  induction l with
  | nil => rfl
  | cons c cs ih =>
      show stripStars ('*' :: '*' :: '*' :: '*' :: c :: hlSubEmpty cs) = stripStars (c :: cs)
      simp only [stripStars, List.filter_cons, ne_eq, decide_not] at *
      norm_num
      by_cases h : c = '*' <;> simp [h, ih]

theorem stripStars_hlSubGo (kw : List Char) :
    ∀ f l, stripStars (hlSubGo kw f l) = stripStars l := by
  intro f
  induction f with
  | zero => intro l; rfl
  | succ f ih =>
      intro l
      cases l with
      | nil => rfl
      | cons c cs =>
          by_cases h : kw.isPrefixOf (lowerL (c :: cs)) = true
          · have expand : hlSubGo kw (f + 1) (c :: cs) =
                '*' :: '*' :: ((c :: cs).take kw.length ++ '*' :: '*' ::
                  hlSubGo kw f ((c :: cs).drop kw.length)) := by
              simp [hlSubGo, h]
            rw [expand]
            have h2 : stripStars ('*' :: '*' :: ((c :: cs).take kw.length ++ '*' :: '*' ::
                hlSubGo kw f ((c :: cs).drop kw.length))) =
                stripStars ((c :: cs).take kw.length) ++
                  stripStars (hlSubGo kw f ((c :: cs).drop kw.length)) := by
              simp [stripStars, List.filter_cons, List.filter_append]
            rw [h2, ih, ← stripStars_append, List.take_append_drop]
          · have expand : hlSubGo kw (f + 1) (c :: cs) = c :: hlSubGo kw f cs := by
              simp [hlSubGo, h]
            rw [expand]
            simp only [stripStars, List.filter_cons] at *
            rw [show List.filter (fun c => decide (c ≠ '*')) (hlSubGo kw f cs)
                  = List.filter (fun c => decide (c ≠ '*')) cs from ih cs]

theorem stripStars_hlSub (kw l : List Char) :
    stripStars (hlSub kw l) = stripStars l := by
  by_cases h : kw.isEmpty = true
  · simp [hlSub, h, stripStars_hlSubEmpty]
  · simp [hlSub, h, stripStars_hlSubGo]

theorem stripStars_highlight (keywords : List String) :
    ∀ text : String,
      stripStars (highlight_keywords text keywords).data = stripStars text.data := by
  induction keywords with
  | nil => intro t; rfl
  | cons k ks ih =>
      intro t
      have step : highlight_keywords t (k :: ks) =
          highlight_keywords (String.mk (hlSub k.data t.data)) ks := rfl
      rw [step, ih]
      exact stripStars_hlSub k.data t.data

/-- Claim C4, corrected.  Applying `highlight_keywords` twice does
double the emphasis markers around already-highlighted spans (see the
counterexample); what holds is idempotence of the marker-free content:
stripping the `*` markers from the twice-highlighted text gives the
marker-free content of the once-highlighted text, for every text and
keyword list. -/
theorem c4_highlight_marker_free_idempotent :
    ∀ (text : String) (keywords : List String),
      stripStars (highlight_keywords (highlight_keywords text keywords) keywords).data
        = stripStars (highlight_keywords text keywords).data := by
  intro t kws
  rw [stripStars_highlight kws (highlight_keywords t kws)]

/-- Claim C4, counterexample to the claim as stated: a second
application of `highlight_keywords` with the same keyword list wraps
the already-marked span again, so the visible output is not the same
and the markers are doubled. -/
theorem c4_counterexample :
    highlight_keywords "dosage" ["dosage"] = "**dosage**" ∧
    highlight_keywords (highlight_keywords "dosage" ["dosage"]) ["dosage"] = "****dosage****" ∧
    highlight_keywords (highlight_keywords "dosage" ["dosage"]) ["dosage"]
      ≠ highlight_keywords "dosage" ["dosage"] := by
  refine ⟨by decide, by decide, by decide⟩

/-! ### Empty-keyword behaviour of `search` (claim C5) -/

/-- Claim C5, amended: a question whose keyword set is empty makes
`search` return the plain empty list — the same value as a zero-result
search, with no typed failure distinguishing the two. -/
theorem c5_empty_keywords_plain_empty :
    ∀ (question : String) (index : List IndexedPage) (n : Nat),
      extractKeywords question = [] → search question index n = [] := by
  intro q idx n h
  simp [search, h]

theorem c5_witness : search "what is the" c5Pages 5 = [] :=
  c5_empty_keywords_plain_empty "what is the" c5Pages 5 (by decide)

/-- Claim C5, counterexample to the claim as stated: the stop-word-only
question and an ordinary question that merely finds nothing produce the
very same value `[]`, so no caller can distinguish them. -/
theorem c5_counterexample :
    extractKeywords "what is the" = [] ∧
    extractKeywords "zzzz" = ["zzzz"] ∧
    search "what is the" c5Pages 5 = search "zzzz" c5Pages 5 ∧
    search "what is the" c5Pages 5 = [] := by
  refine ⟨by decide, by decide, by decide, by decide⟩

/-! ### Search invariants (claims C3, C10) -/

theorem search_eq (q : String) (idx : List IndexedPage) (n : Nat) :
    search q idx n = if (extractKeywords q).isEmpty then []
      else (sortGe scoreGe (searchCandidates (extractKeywords q) idx)).take n := rfl

theorem searchCandidates_spec (kws : List String) (idx : List IndexedPage)
    (r : SearchResult) (h : r ∈ searchCandidates kws idx) :
    ∃ p ∈ idx, r.file = p.file ∧ r.page = p.page ∧ r.text = p.text ∧
      r.keywords = kws ∧ 0 < r.score ∧ r.score = kwScore kws (lowerL p.text.data) := by
  obtain ⟨page, hp, hf⟩ := List.mem_filterMap.mp h
  by_cases hc : kwScore kws (lowerL page.text.data) > 0
  · rw [if_pos hc] at hf
    obtain rfl := Option.some.inj hf
    exact ⟨page, hp, rfl, rfl, rfl, rfl, hc, rfl⟩
  · rw [if_neg hc] at hf
    exact absurd hf (by simp)

theorem scoreGe_total (a b : SearchResult) : scoreGe a b = true ∨ scoreGe b a = true := by
  rcases Nat.le_total a.score b.score with h | h
  · right; simpa [scoreGe] using h
  · left; simpa [scoreGe] using h

theorem scoreGe_trans (a b c : SearchResult) :
    scoreGe a b = true → scoreGe b c = true → scoreGe a c = true := by
  simp only [scoreGe, decide_eq_true_eq]
  omega

theorem mem_search (q : String) (idx : List IndexedPage) (n : Nat)
    (r : SearchResult) (h : r ∈ search q idx n) :
    r ∈ searchCandidates (extractKeywords q) idx := by
  rw [search_eq] at h
  split at h
  · exact absurd h (by simp)
  · exact mem_sortGe.mp (List.take_subset n _ h)

/-- Claim C10, confirmed: every result of `search` has score at least 1,
carries the page text, file and page of an indexed page unchanged, and
carries the keyword sequence extracted from the question (the same one
for every result of the query). -/
theorem c10_search_result_invariants :
    ∀ (question : String) (index : List IndexedPage) (n : Nat) (r : SearchResult),
      r ∈ search question index n →
        1 ≤ r.score ∧ r.keywords = extractKeywords question ∧
        ∃ p ∈ index, r.file = p.file ∧ r.page = p.page ∧ r.text = p.text := by
  intro q idx n r hr
  obtain ⟨p, hp, hfile, hpage, htext, hkw, hpos, _⟩ :=
    searchCandidates_spec (extractKeywords q) idx r (mem_search q idx n r hr)
  exact ⟨hpos, hkw, p, hp, hfile, hpage, htext⟩

theorem c10_witness :
    1 ≤ c10Result.score ∧ c10Result.keywords = extractKeywords "dosage" ∧
    ∃ p ∈ c10Pages, c10Result.file = p.file ∧ c10Result.page = p.page ∧
      c10Result.text = p.text :=
  c10_search_result_invariants "dosage" c10Pages 5 c10Result (by decide)

/-- Claim C3, confirmed: `search` returns only pages with positive
score, sorted by descending score, with equal-score pages kept in index
order (the sorted candidate list restricted to any score value equals
the candidate list in index order so restricted), truncated to
`max_results`; and on the two-page dosage index the five-occurrence
page A is ranked before the one-occurrence page B. -/
theorem c3_search_ranking :
    (∀ (q : String) (idx : List IndexedPage) (n : Nat),
      (∀ r ∈ search q idx n, 0 < r.score) ∧
      (search q idx n).Pairwise (fun a b => b.score ≤ a.score) ∧
      (search q idx n).length ≤ n ∧
      (∀ v : Nat,
        (sortGe scoreGe (searchCandidates (extractKeywords q) idx)).filter
            (fun r => r.score == v)
          = (searchCandidates (extractKeywords q) idx).filter (fun r => r.score == v))) ∧
    (search "what is the dosage" c3Pages 2).map (fun r => (r.file, r.score))
      = [("A.pdf", 5), ("B.pdf", 1)] := by
  constructor
  · intro q idx n
    refine ⟨?_, ?_, ?_, ?_⟩
    · intro r hr
      obtain ⟨p, _, _, _, _, _, hpos, _⟩ :=
        searchCandidates_spec (extractKeywords q) idx r (mem_search q idx n r hr)
      exact hpos
    · rw [search_eq]
      split
      · simp
      · have hs := sortGe_pairwise scoreGe scoreGe_total scoreGe_trans
          (searchCandidates (extractKeywords q) idx)
        have ht := hs.sublist (List.take_sublist n _)
        exact ht.imp (fun h => by simpa [scoreGe] using h)
    · rw [search_eq]
      split
      · simp
      · simp only [List.length_take]
        exact Nat.min_le_left n _
    · intro v
      refine sortGe_filter_stable scoreGe _ ?_ _
      intro a b ha hb
      have ha' : a.score = v := by simpa using ha
      have hb' : b.score = v := by simpa using hb
      simp [scoreGe, ha', hb']
  · decide

theorem c3_witness : 0 < c3ResultA.score :=
  (c3_search_ranking.1 "what is the dosage" c3Pages 2).1 c3ResultA (by decide)

/-! ### The tuple order of `scored_sentences.sort(reverse=True)` (claim C6) -/

theorem charListLt_irrefl : ∀ l, charListLt l l = false := by
  intro l
  induction l with
  | nil => rfl
  | cons c cs ih => simp [charListLt, ih]

theorem charListLt_asymm : ∀ a b, charListLt a b = true → charListLt b a = false := by
  intro a
  induction a with
  | nil => intro b h; cases b <;> simp [charListLt]
  | cons c cs ih =>
      intro b h
      cases b with
      | nil => simp [charListLt] at h
      | cons d ds =>
          simp only [charListLt, Bool.or_eq_true, Bool.and_eq_true, decide_eq_true_eq] at h
          show (decide (d < c) || (decide (d = c) && charListLt ds cs)) = false
          rcases h with h | ⟨rfl, h⟩
          · have h1 : decide (d < c) = false := by
              simp only [decide_eq_false_iff_not]
              exact not_lt_of_lt h
            have h2 : decide (d = c) = false := by
              simp only [decide_eq_false_iff_not]
              exact ne_of_gt h
            simp [h1, h2]
          · simp [lt_irrefl, ih ds h]

theorem charListLt_trans : ∀ a b c, charListLt a b = true → charListLt b c = true →
    charListLt a c = true := by
  intro a
  induction a with
  | nil =>
      intro b c h1 h2
      cases b with
      | nil => simp [charListLt] at h1
      | cons d ds => cases c with
          | nil => simp [charListLt] at h2
          | cons e es => simp [charListLt]
  | cons x xs ih =>
      intro b c h1 h2
      cases b with
      | nil => simp [charListLt] at h1
      | cons d ds =>
          cases c with
          | nil => simp [charListLt] at h2
          | cons e es =>
              simp only [charListLt, Bool.or_eq_true, Bool.and_eq_true,
                decide_eq_true_eq] at h1 h2 ⊢
              rcases h1 with h1 | ⟨rfl, h1⟩
              · rcases h2 with h2 | ⟨rfl, h2⟩
                · exact Or.inl (lt_trans h1 h2)
                · exact Or.inl h1
              · rcases h2 with h2 | ⟨rfl, h2⟩
                · exact Or.inl h2
                · exact Or.inr ⟨rfl, ih ds es h1 h2⟩

theorem charListLt_connex : ∀ a b : List Char, a ≠ b →
    charListLt a b = true ∨ charListLt b a = true := by
  intro a
  induction a with
  | nil =>
      intro b hne
      cases b with
      | nil => exact absurd rfl hne
      | cons d ds => exact Or.inl (by simp [charListLt])
  | cons c cs ih =>
      intro b hne
      cases b with
      | nil => exact Or.inr (by simp [charListLt])
      | cons d ds =>
          rcases lt_trichotomy c d with h | rfl | h
          · exact Or.inl (by simp [charListLt, h])
          · have hne2 : cs ≠ ds := fun he => hne (by rw [he])
            rcases ih ds hne2 with h | h
            · exact Or.inl (by simp [charListLt, h])
            · exact Or.inr (by simp [charListLt, h])
          · exact Or.inr (by simp [charListLt, h])

theorem tupGe_iff (a b : Nat × String) : tupGe a b = true ↔
    (b.1 ≤ a.1 ∧ (a.1 = b.1 → charListLt a.2.data b.2.data = false)) := by
  simp only [tupGe, Bool.not_eq_true']
  rcases lt_trichotomy a.1 b.1 with h | h | h
  · have h1 : decide (a.1 < b.1) = true := by simpa using h
    simp [h1]
    omega
  · have h1 : decide (a.1 < b.1) = false := by simp [h]
    have h2 : decide (a.1 = b.1) = true := by simpa using h
    cases hx : charListLt a.2.data b.2.data
    · simp [h1, h2, hx]
      omega
    · simp [h1, h2, hx]
      intro _
      exact h
  · have h1 : decide (a.1 < b.1) = false := by
      simp only [decide_eq_false_iff_not]
      omega
    have h2 : decide (a.1 = b.1) = false := by
      simp only [decide_eq_false_iff_not]
      omega
    simp [h1, h2]
    constructor
    · omega
    · intro he
      exact absurd he (by omega)

theorem tupGe_total (a b : Nat × String) : tupGe a b = true ∨ tupGe b a = true := by
  rcases lt_trichotomy a.1 b.1 with h | h | h
  · right
    rw [tupGe_iff]
    exact ⟨by omega, fun he => absurd he (by omega)⟩
  · by_cases hd : a.2.data = b.2.data
    · left
      rw [tupGe_iff]
      exact ⟨by omega, fun _ => by rw [hd]; exact charListLt_irrefl _⟩
    · rcases charListLt_connex a.2.data b.2.data hd with hc | hc
      · right
        rw [tupGe_iff]
        exact ⟨by omega, fun _ => charListLt_asymm _ _ hc⟩
      · left
        rw [tupGe_iff]
        exact ⟨by omega, fun _ => charListLt_asymm _ _ hc⟩
  · left
    rw [tupGe_iff]
    exact ⟨by omega, fun he => absurd he (by omega)⟩

theorem tupGe_trans (a b c : Nat × String) (h1 : tupGe a b = true)
    (h2 : tupGe b c = true) : tupGe a c = true := by
  rw [tupGe_iff] at h1 h2 ⊢
  obtain ⟨hle1, hx1⟩ := h1
  obtain ⟨hle2, hx2⟩ := h2
  refine ⟨by omega, ?_⟩
  intro heq
  have hab : a.1 = b.1 := by omega
  have hbc : b.1 = c.1 := by omega
  have hab2 := hx1 hab
  have hbc2 := hx2 hbc
  cases hlt : charListLt a.2.data c.2.data
  · rfl
  · exfalso
    by_cases he : a.2.data = b.2.data
    · rw [he] at hlt
      rw [hlt] at hbc2
      cases hbc2
    · rcases charListLt_connex a.2.data b.2.data he with hc1 | hc1
      · rw [hc1] at hab2
        cases hab2
      · have := charListLt_trans _ _ _ hc1 hlt
        rw [this] at hbc2
        cases hbc2

theorem snippetExtend_prefix (maxWords : Nat) :
    ∀ (rest : List (Nat × String)) (s : String) (n : Nat),
      s.data <+: (snippetExtend maxWords rest s n).data := by
  intro rest
  induction rest with
  | nil => intro s n; exact List.prefix_refl _
  | cons p ps ih =>
      intro s n
      by_cases h : n + (wordsL p.2.data).length ≤ maxWords
      · have expand : snippetExtend maxWords (p :: ps) s n =
            snippetExtend maxWords ps (s ++ " " ++ p.2) (n + (wordsL p.2.data).length) := by
          simp [snippetExtend, h]
        rw [expand]
        refine List.IsPrefix.trans ?_ (ih (s ++ " " ++ p.2) (n + (wordsL p.2.data).length))
        refine ⟨" ".data ++ p.2.data, ?_⟩
        simp [String.data_append]
      · have expand : snippetExtend maxWords (p :: ps) s n = s := by
          simp [snippetExtend, h]
        rw [expand]

/-- Claim C6, amended.  The snippet is built starting from the
keyword-containing naive sentence selected as the head of the sorted
`(score, sentence)` list — which is a greatest element of that list
under the Python tuple comparison `(score, stripped sentence)`, so among
sentences tying on the occurrence count the one with the
lexicographically greatest stripped text is chosen, not the earliest
one (see the counterexample). -/
theorem c6_snippet_starts_with_best :
    ∀ (text : String) (keywords : List String),
      scoredSentences text keywords ≠ [] →
        bestScored text keywords ∈ scoredSentences text keywords ∧
        (∀ p ∈ scoredSentences text keywords, tupGe (bestScored text keywords) p = true) ∧
        ((if (wordsL (bestScored text keywords).2.data).length > 80 then
            String.mk (joinWordsL ((wordsL (bestScored text keywords).2.data).take 80))
          else (bestScored text keywords).2)).data
          <+: (extract_relevant_snippet text keywords).data := by
  intro text kws hne
  cases hs : sortGe tupGe (scoredSentences text kws) with
  | nil =>
      exfalso
      have := (sortGe_perm tupGe (scoredSentences text kws)).length_eq
      rw [hs] at this
      exact hne (List.length_eq_zero.mp this.symm)
  | cons x xs =>
      have hbest : bestScored text kws = x := by
        simp [bestScored, hs]
      have hmem : bestScored text kws ∈ scoredSentences text kws := by
        rw [hbest]
        exact mem_sortGe.mp (hs ▸ List.mem_cons_self x xs)
      have hmax : ∀ p ∈ scoredSentences text kws, tupGe (bestScored text kws) p = true := by
        rw [hbest]
        exact sortGe_head_max tupGe tupGe_total tupGe_trans _ x xs hs
      refine ⟨hmem, hmax, ?_⟩
      have hsne : (scoredSentences text kws).isEmpty = false := by
        cases hsc : scoredSentences text kws
        · exact absurd hsc hne
        · rfl
      show _ <+: (extract_relevant_snippet text kws).data
      rw [extract_relevant_snippet]
      simp only [hsne, Bool.false_eq_true, if_false, hs, hbest]
      have hhead : ((x :: xs).headD ((0 : Nat), "")).2 = x.2 := rfl
      rw [hhead]
      by_cases hlong : (wordsL x.2.data).length > 80
      · simp only [hlong, if_true, String.data_append]
        exact ⟨"...".data, rfl⟩
      · simp only [hlong, if_false]
        exact snippetExtend_prefix 80 (((x :: xs).drop 1).take 2) x.2 (wordsL x.2.data).length

/-- Claim C6, counterexample to the claim as stated: in
`"apple dosage there. zebra dosage here."` both naive sentences contain
the keyword once, the earliest is `apple dosage there`, yet the snippet
is built starting from `zebra dosage here` (the tuple sort breaks the
tie towards the lexicographically greater sentence). -/
theorem c6_counterexample :
    scoredSentences c6Demo ["dosage"] =
      [(1, "apple dosage there"), (1, "zebra dosage here")] ∧
    extract_relevant_snippet c6Demo ["dosage"] = "zebra dosage here apple dosage there" ∧
    List.isPrefixOf "apple dosage there".data
      (extract_relevant_snippet c6Demo ["dosage"]).data = false := by
  refine ⟨by decide, by decide, by decide⟩

theorem c6_witness :
    bestScored c6Demo ["dosage"] ∈ scoredSentences c6Demo ["dosage"] :=
  (c6_snippet_starts_with_best c6Demo ["dosage"] (by decide)).1

/-! ### Key-mechanism extraction (claims C1, C2, C9) -/

theorem mechCandidates_spec (text : String) (sc : Int) (s : String)
    (h : (sc, s) ∈ mechCandidates text) :
    sc = mechScore (lowerL s.data) ∧ 1 < sc ∧
    containsAny kill_shots (lowerL s.data) = false ∧ startsUpperAZ s.data = true := by
  obtain ⟨sentRaw, hmem, hf⟩ := List.mem_filterMap.mp h
  dsimp only at hf
  by_cases h8 : (wordsL (stripL sentRaw)).length < 8
  · rw [if_pos h8] at hf
    exact absurd hf (by simp)
  · rw [if_neg h8] at hf
    by_cases hk : containsAny kill_shots (lowerL (cleanSentence (stripL sentRaw))) = true
    · rw [if_pos hk] at hf
      exact absurd hf (by simp)
    · rw [if_neg hk] at hf
      by_cases hu : (!startsUpperAZ (cleanSentence (stripL sentRaw))) = true
      · rw [if_pos hu] at hf
        exact absurd hf (by simp)
      · rw [if_neg hu] at hf
        by_cases hgt : mechScore (lowerL (cleanSentence (stripL sentRaw))) > 1
        · rw [if_pos hgt] at hf
          obtain ⟨rfl, rfl⟩ := Prod.mk.injEq .. ▸ Option.some.inj hf
          refine ⟨rfl, hgt, ?_, ?_⟩
          · exact Bool.not_eq_true _ ▸ (by simpa using hk)
          · simpa using hu
        · rw [if_neg hgt] at hf
          exact absurd hf (by simp)

theorem extract_key_mechanism_mem (text : String) (r : String)
    (h : extract_key_mechanism text = some r) :
    ∃ sc : Int, (sc, r) ∈ mechCandidates text := by
  rw [extract_key_mechanism] at h
  cases hs : sortGe mechGe (mechCandidates text) with
  | nil => rw [hs] at h; exact absurd h (by simp)
  | cons p ps =>
      rw [hs] at h
      obtain rfl : p.2 = r := Option.some.inj h
      refine ⟨p.1, ?_⟩
      have : p ∈ sortGe mechGe (mechCandidates text) := hs ▸ List.mem_cons_self p ps
      exact mem_sortGe.mp this

/-- Claim C1, confirmed.  `_extract_key_mechanism` never returns a
sentence containing the kill-shot phrase `not intended to diagnose`
(checked case-insensitively, as the code does); every candidate of the
`scored` list carries exactly the additive tier score after penalties
of its cleaned sentence and survives only with score strictly above 1;
and on text with both a qualifying blue-light-filter sentence and a
competing sentence whose only scoring vocabulary is `support immune
health`, the blue-light-filter sentence is returned. -/
theorem c1_extract_key_mechanism :
    (∀ (text : String) (r : String), extract_key_mechanism text = some r →
        containsL ("not intended to diagnose".data) (lowerL r.data) = false) ∧
    (∀ (text : String) (sc : Int) (s : String), (sc, s) ∈ mechCandidates text →
        sc = mechScore (lowerL s.data) ∧ 1 < sc) ∧
    extract_key_mechanism c1Demo =
      some "Product works by serving as a blue-light filter inside the eye" ∧
    containsL ("serving as a blue-light filter".data)
      ("Product works by serving as a blue-light filter inside the eye".data) = true := by
  refine ⟨?_, ?_, ?_, ?_⟩
  · intro text r h
    obtain ⟨sc, hmem⟩ := extract_key_mechanism_mem text r h
    obtain ⟨_, _, hkill, _⟩ := mechCandidates_spec text sc r hmem
    cases hc : containsL ("not intended to diagnose".data) (lowerL r.data)
    · rfl
    · exfalso
      have : containsAny kill_shots (lowerL r.data) = true :=
        List.any_eq_true.mpr ⟨"not intended to diagnose", by decide, hc⟩
      rw [this] at hkill
      cases hkill
  · intro text sc s h
    obtain ⟨h1, h2, _, _⟩ := mechCandidates_spec text sc s h
    exact ⟨h1, h2⟩
  · decide
  · decide

theorem c1_witness :
    containsL ("not intended to diagnose".data)
      (lowerL "Product works by serving as a blue-light filter inside the eye".data) = false :=
  c1_extract_key_mechanism.1 c1Demo
    "Product works by serving as a blue-light filter inside the eye" (by decide)

theorem upper_not_space (c : Char) (h : isUpperAZ c = true) : pyIsSpace c = false := by
  simp only [isUpperAZ, Bool.and_eq_true, decide_eq_true_eq] at h
  obtain ⟨h1, h2⟩ := h
  simp only [pyIsSpace, Bool.or_eq_false_iff, decide_eq_false_iff_not]
  refine ⟨⟨⟨⟨⟨?_, ?_⟩, ?_⟩, ?_⟩, ?_⟩, ?_⟩ <;>
    · intro he
      subst he
      exact absurd h1 (by decide)

theorem stripL_cons_of_not_space (c : Char) (cs : List Char)
    (hc : pyIsSpace c = false) : ∃ ds, stripL (c :: cs) = c :: ds := by
  have hdrop : (c :: cs).dropWhile pyIsSpace = c :: cs := by
    rw [List.dropWhile_cons_of_neg (by simp [hc])]
  rw [stripL, hdrop]
  have hrev : (c :: cs).reverse = cs.reverse ++ [c] := by simp
  rw [hrev, List.dropWhile_append]
  by_cases he : (cs.reverse.dropWhile pyIsSpace).isEmpty = true
  · rw [if_pos he]
    rw [List.dropWhile_cons_of_neg (by simp [hc])]
    exact ⟨[], by simp⟩
  · rw [if_neg he]
    exact ⟨(cs.reverse.dropWhile pyIsSpace).reverse, by simp⟩

/-- Claim C2, amended.  For every input from which a mechanism was
extracted, the extracted mechanism starts with an uppercase letter, so
the uppercase check of `make_answer` — which runs before the
redundant-phrase stripping, not after it — always passes, and the
mechanism clause, its label included, is always appended with the
lead-phrase-stripped text, even when that text begins with a lowercase
letter (see the counterexample). -/
theorem c2_mechanism_clause_always_appended :
    ∀ (text : String) (m : String), extract_key_mechanism text = some m →
      startsUpperAZ m.data = true ∧
      mechanism_clause (some m) =
        " <strong>How does it work?</strong> " ++
          String.mk (stripLeadPhrase (stripL m.data)) ++ "." := by
  intro text m h
  obtain ⟨sc, hmem⟩ := extract_key_mechanism_mem text m h
  obtain ⟨_, _, _, hu⟩ := mechCandidates_spec text sc m hmem
  refine ⟨hu, ?_⟩
  cases hd : m.data with
  | nil => rw [hd] at hu; exact absurd hu (by decide)
  | cons c cs =>
      rw [hd] at hu
      have hcu : isUpperAZ c = true := hu
      obtain ⟨ds, hstrip⟩ := stripL_cons_of_not_space c cs (upper_not_space c hcu)
      have hne : m.data.isEmpty = false := by rw [hd]; rfl
      rw [mechanism_clause, if_neg (by simp [hne]), hd, hstrip]
      have h1 : (!(c :: ds).isEmpty && !startsUpperAZ (c :: ds)) = false := by
        simp [startsUpperAZ, hcu]
      have h2 : startsUpperAZ (c :: ds) = true := hcu
      simp [h1, h2]

theorem c2_witness :
    startsUpperAZ "The combination of nutrients helps block retinal damage quickly".data = true ∧
    mechanism_clause (some "The combination of nutrients helps block retinal damage quickly") =
      " <strong>How does it work?</strong> " ++
        String.mk (stripLeadPhrase (stripL
          "The combination of nutrients helps block retinal damage quickly".data)) ++ "." :=
  c2_mechanism_clause_always_appended c2Demo
    "The combination of nutrients helps block retinal damage quickly" (by decide)

/-- Claim C2, counterexample to the claim as stated: on `c2Demo` a
mechanism is extracted, after the lead-phrase stripping the candidate
starts with a lowercase letter, and yet the clause — section label
included — is appended to the summary rather than dropped. -/
theorem c2_counterexample :
    extract_key_mechanism c2Demo =
      some "The combination of nutrients helps block retinal damage quickly" ∧
    startsUpperAZ (stripLeadPhrase (stripL
      "The combination of nutrients helps block retinal damage quickly".data)) = false ∧
    mechanism_clause (extract_key_mechanism c2Demo) =
      " <strong>How does it work?</strong> nutrients helps block retinal damage quickly." ∧
    mechanism_clause (extract_key_mechanism c2Demo) ≠ "" := by
  refine ⟨by decide, by decide, by decide, by decide⟩

theorem headerStrip1_cases (l : List Char) :
    headerStrip1 l = l ∨ startsLowerAZ (headerStrip1 l) = true := by
  rcases h1 : repParse l with _ | r1
  · left
    simp [headerStrip1, h1]
  · rcases h2 : repParse r1 with _ | r2
    · simp only [headerStrip1, h1, h2]
      split_ifs <;> simp_all
    · rcases h3 : repParse r2 with _ | r3
      · simp only [headerStrip1, h1, h2, h3]
        split_ifs <;> simp_all
      · rcases h4 : repParse r3 with _ | r4
        · simp only [headerStrip1, h1, h2, h3, h4]
          split_ifs <;> simp_all
        · simp only [headerStrip1, h1, h2, h3, h4]
          split_ifs <;> simp_all

theorem headerStrip2_cases (l : List Char) :
    headerStrip2 l = l ∨ ∃ r, headerStrip2 l = 'T' :: 'h' :: 'e' :: ' ' :: r := by
  unfold headerStrip2
  cases theScan l with
  | none => exact Or.inl rfl
  | some r => exact Or.inr ⟨r, rfl⟩

theorem wordsL_nil : wordsL ([] : List Char) = [] := rfl

/-- Claim C9, confirmed.  Every naive sentence of at least 8 words is
still nonempty after the two header-stripping rewrites (and after the
capitalisation step), so the unguarded first-character accesses of
`_extract_key_mechanism` are safe, and every extracted mechanism is a
nonempty string. -/
theorem c9_clean_sentence_nonempty :
    (∀ piece : List Char, 8 ≤ (wordsL (stripL piece)).length →
      headerStrip2 (headerStrip1 (stripL piece)) ≠ [] ∧ cleanSentence (stripL piece) ≠ []) ∧
    (∀ (text : String) (r : String), extract_key_mechanism text = some r → r ≠ "") := by
  constructor
  · intro piece h8
    have hne : stripL piece ≠ [] := by
      intro he
      rw [he, wordsL_nil] at h8
      exact absurd h8 (by simp)
    have h1 : headerStrip1 (stripL piece) ≠ [] := by
      rcases headerStrip1_cases (stripL piece) with h | h
      · rw [h]; exact hne
      · intro he
        rw [he] at h
        exact absurd h (by decide)
    have h2 : headerStrip2 (headerStrip1 (stripL piece)) ≠ [] := by
      rcases headerStrip2_cases (headerStrip1 (stripL piece)) with h | ⟨r, h⟩
      · rw [h]; exact h1
      · rw [h]; simp
    refine ⟨h2, ?_⟩
    rw [cleanSentence]
    cases hc : headerStrip2 (headerStrip1 (stripL piece)) with
    | nil => exact absurd hc h2
    | cons c cs =>
        show (if isLowerAZ c = true then c.toUpper :: cs else c :: cs) ≠ []
        split_ifs <;> simp
  · intro text r h
    obtain ⟨sc, hmem⟩ := extract_key_mechanism_mem text r h
    obtain ⟨_, _, _, hu⟩ := mechCandidates_spec text sc r hmem
    intro he
    rw [he] at hu
    exact absurd hu (by decide)

theorem c9_witness :
    cleanSentence (stripL "one two three four five six seven eight".data) ≠ [] :=
  (c9_clean_sentence_nonempty.1 "one two three four five six seven eight".data (by decide)).2

/-- Claim C7, code bug.  The abbreviation list of `_split_sentences`
protects only the trailing period of a dotted abbreviation: on input
containing `e.g.` the interior period still splits the text, producing
the spurious fragment sentence `g. athletes ...` and silently dropping
`Supplements help e`.  The `Dr.` protection, by contrast, works. -/
theorem c7_split_sentences_eg_break :
    split_sentences c7BadInput = ["g. athletes recover properly after intense training"] ∧
    split_sentences c7DrInput = ["We met Dr. Smith at the clinic yesterday"] := by
  refine ⟨by decide, by decide⟩

theorem DD_le (l : List Char) : ∀ j, DD l j ≤ j + 1 := by
  intro j
  induction j with
  | zero => rw [DD]; split_ifs <;> omega
  | succ j ih => rw [DD]; split_ifs <;> omega

theorem DD_eq_of_not_pop (l : List Char) (j : Nat)
    (h : b2jPopular l (nthC l j) = false) :
    DD l j = (if j = 0 then 0 else DD l (j - 1)) + 1 := by
  cases j with
  | zero => rw [DD]; simp [h]
  | succ j => rw [DD]; simp [h]

theorem DD_pos_of_not_pop (l : List Char) (j : Nat)
    (h : b2jPopular l (nthC l j) = false) : 1 ≤ DD l j := by
  rw [DD_eq_of_not_pop l j h]; omega

theorem DD_eq_zero_of_pop (l : List Char) (j : Nat)
    (h : b2jPopular l (nthC l j) = true) : DD l j = 0 := by
  cases j with
  | zero => rw [DD]; simp [h]
  | succ j => rw [DD]; simp [h]

theorem flmInner_eq (i : Nat) (old : Nat → Nat) (st : FlmState) (j : Nat) :
    flmInner i old st j =
      if kOf old j > st.bs then
        ⟨fun x => if x = j then kOf old j else st.j2 x, i + 1 - kOf old j,
          j + 1 - kOf old j, kOf old j⟩
      else ⟨fun x => if x = j then kOf old j else st.j2 x, st.bi, st.bj, st.bs⟩ := rfl

/-- Inner loop, no-record case: if every processed run length stays
within the current best size, the best block is unchanged and the new
row carries exactly the processed entries. -/
theorem foldInner_steady (i : Nat) (old : Nat → Nat) :
    ∀ (js : List Nat) (st : FlmState),
      (∀ j ∈ js, kOf old j ≤ st.bs) →
      (js.foldl (flmInner i old) st).bi = st.bi ∧
      (js.foldl (flmInner i old) st).bj = st.bj ∧
      (js.foldl (flmInner i old) st).bs = st.bs ∧
      (∀ x, (js.foldl (flmInner i old) st).j2 x = st.j2 x ∨
        (x ∈ js ∧ (js.foldl (flmInner i old) st).j2 x = kOf old x)) := by
  intro js
  induction js with
  | nil => intro st h; exact ⟨rfl, rfl, rfl, fun x => by simp⟩
  | cons j js ih =>
      intro st h
      have hj : kOf old j ≤ st.bs := h j (List.mem_cons_self j js)
      have hstep : (j :: js).foldl (flmInner i old) st =
          js.foldl (flmInner i old)
            ⟨fun x => if x = j then kOf old j else st.j2 x, st.bi, st.bj, st.bs⟩ := by
        rw [List.foldl_cons, flmInner_eq, if_neg (by omega)]
      rw [hstep]
      obtain ⟨h1, h2, h3, h4⟩ := ih
        ⟨fun x => if x = j then kOf old j else st.j2 x, st.bi, st.bj, st.bs⟩
        (fun j2 hj2 => by simpa using h j2 (List.mem_cons_of_mem j hj2))
      refine ⟨h1, h2, h3, ?_⟩
      intro x
      rcases h4 x with hx | ⟨hxm, hxv⟩
      · simp only [hx]
        by_cases hxj : x = j
        · subst hxj
          exact Or.inr ⟨List.mem_cons_self x js, by simp⟩
        · simp [hxj]
      · exact Or.inr ⟨List.mem_cons_of_mem j hxm, hxv⟩

theorem b2jGet_self_split (l : List Char) (m : Nat) (hm : m < l.length)
    (hpop : b2jPopular l (nthC l m) = false) :
    b2jGet l (nthC l m) =
      (List.range' 0 m).filter (fun j => nthC l j = nthC l m) ++ [m] ++
      (List.range' (m + 1) (l.length - m - 1)).filter (fun j => nthC l j = nthC l m) := by
  rw [b2jGet, if_neg (by simp [hpop])]
  have h1 : List.range l.length =
      List.range' 0 m ++ [m] ++ List.range' (m + 1) (l.length - m - 1) := by
    rw [List.range_eq_range']
    have e1 : List.range' 0 m ++ List.range' (0 + m) 1 = List.range' 0 (1 + m) :=
      List.range'_append_1 0 m 1
    have e2 : List.range' 0 (1 + m) ++ List.range' (0 + (1 + m)) (l.length - m - 1)
        = List.range' 0 ((l.length - m - 1) + (1 + m)) :=
      List.range'_append_1 0 (1 + m) (l.length - m - 1)
    have e3 : (l.length - m - 1) + (1 + m) = l.length := by omega
    have e4 : List.range' (0 + m) 1 = [m] := by simp
    have e5 : (0 + (1 + m)) = m + 1 := by omega
    rw [e3] at e2
    rw [← e2, ← e1, e4, e5]
  rw [h1]
  rw [List.filter_append, List.filter_append]
  congr 1
  simp

theorem flmStep_range_filter (l : List Char) (c : Char) :
    (b2jGet l c).filter (fun j => decide (0 ≤ j) && decide (j < l.length))
      = b2jGet l c := by
  refine List.filter_eq_self.mpr ?_
  intro j hj
  rw [b2jGet] at hj
  split at hj
  · exact absurd hj (by simp)
  · have := List.mem_filter.mp hj
    have hr : j ∈ List.range l.length := this.1
    have : j < l.length := List.mem_range.mp hr
    simp [this]

theorem flmStep_inv (l : List Char) (m : Nat) (hm : m < l.length)
    (st : FlmState) (hst : OuterInv l m st) :
    OuterInv l (m + 1) (flmStep l (b2jGet l) 0 l.length st m) := by
  obtain ⟨hdiag, hrange, hdom, hrow, hprev, hdiagrow⟩ := hst
  by_cases hpop : b2jPopular l (nthC l m) = true
  · have hjs : b2jGet l (nthC l m) = [] := by rw [b2jGet, if_pos hpop]
    have hres : flmStep l (b2jGet l) 0 l.length st m =
        ⟨fun _ => 0, st.bi, st.bj, st.bs⟩ := by
      rw [flmStep, hjs]
      rfl
    rw [hres]
    have hDm : DD l m = 0 := DD_eq_zero_of_pop l m hpop
    refine ⟨hdiag, hrange, ?_, ?_, ?_, ?_⟩
    · intro j hj
      rcases Nat.lt_or_ge j m with h | h
      · exact hdom j h
      · have : j = m := by omega
        subst this
        simp [hDm]
    · intro x; simp
    · intro x; simp
    · intro _
      simp [hDm]
  · have hpop' : b2jPopular l (nthC l m) = false := by
      cases h : b2jPopular l (nthC l m)
      · rfl
      · exact absurd h hpop
    have hDm : DD l m = (if m = 0 then 0 else DD l (m - 1)) + 1 :=
      DD_eq_of_not_pop l m hpop'
    -- run-length bounds for positions carrying the same character
    have hkDDj : ∀ j, nthC l j = nthC l m → kOf st.j2 j ≤ DD l j := by
      intro j hc
      have hjpop : b2jPopular l (nthC l j) = false := by rw [hc]; exact hpop'
      have hDj := DD_eq_of_not_pop l j hjpop
      by_cases hj0 : j = 0
      · subst hj0
        have hpos := DD_pos_of_not_pop l 0 hjpop
        have hk1 : kOf st.j2 0 = 1 := by simp [kOf]
        omega
      · rw [kOf, if_neg hj0, hDj, if_neg hj0]
        have := hrow (j - 1)
        omega
    have hkDDm : ∀ j, nthC l j = nthC l m → kOf st.j2 j ≤ DD l m := by
      intro j hc
      by_cases hj0 : j = 0
      · subst hj0
        have hk1 : kOf st.j2 0 = 1 := by simp [kOf]
        omega
      · rw [kOf, if_neg hj0, hDm]
        have := hprev (j - 1)
        rcases Nat.eq_zero_or_pos m with hm0 | hm0
        · subst hm0
          simp at this
          omega
        · rw [if_neg (by omega)] at this ⊢
          omega
    have hkm : kOf st.j2 m = DD l m := by
      rcases Nat.eq_zero_or_pos m with hm0 | hm0
      · subst hm0
        rw [kOf, if_pos rfl, hDm, if_pos rfl]
      · rw [kOf, if_neg (by omega), hDm, if_neg (by omega), hdiagrow hm0]
    -- decompose the position list around the diagonal index m
    have hsplit := b2jGet_self_split l m hm hpop'
    have hfilter := flmStep_range_filter l (nthC l m)
    rw [flmStep, hfilter, hsplit]
    set A := (List.range' 0 m).filter (fun j => nthC l j = nthC l m) with hA
    set B := (List.range' (m + 1) (l.length - m - 1)).filter
      (fun j => nthC l j = nthC l m) with hB
    have hmemA : ∀ j ∈ A, j < m ∧ nthC l j = nthC l m := by
      intro j hj
      obtain ⟨hr, hp⟩ := List.mem_filter.mp hj
      have := List.mem_range'_1.mp hr
      exact ⟨by omega, of_decide_eq_true hp⟩
    have hmemB : ∀ j ∈ B, m + 1 ≤ j ∧ nthC l j = nthC l m := by
      intro j hj
      obtain ⟨hr, hp⟩ := List.mem_filter.mp hj
      have := List.mem_range'_1.mp hr
      exact ⟨by omega, of_decide_eq_true hp⟩
    rw [List.foldl_append, List.foldl_append]
    -- stage A: indices left of the diagonal never beat the current best
    obtain ⟨hA1, hA2, hA3, hA4⟩ := foldInner_steady m st.j2 A
      ⟨fun _ => 0, st.bi, st.bj, st.bs⟩
      (by
        intro j hj
        obtain ⟨hjm, hc⟩ := hmemA j hj
        have h1 := hkDDj j hc
        have h2 := hdom j hjm
        simp only []
        omega)
    set stA := A.foldl (flmInner m st.j2) ⟨fun _ => 0, st.bi, st.bj, st.bs⟩ with hstA
    -- stage m: the diagonal entry, recorded or not, stays diagonal
    have hstepm : [m].foldl (flmInner m st.j2) stA = flmInner m st.j2 stA m := rfl
    set stM := flmInner m st.j2 stA m with hstM
    have hA1s : stA.bi = st.bi := hA1
    have hA2s : stA.bj = st.bj := hA2
    have hA3s : stA.bs = st.bs := hA3
    have hMfacts : stM.bi = stM.bj ∧ stM.bi + stM.bs ≤ l.length ∧
        st.bs ≤ stM.bs ∧ DD l m ≤ stM.bs ∧ stM.j2 m = DD l m ∧
        (∀ x, stM.j2 x = stA.j2 x ∨ x = m) := by
      rw [hstM, flmInner_eq]
      by_cases hrec : kOf st.j2 m > stA.bs
      · rw [if_pos hrec]
        rw [hA3s] at hrec
        have hDle := DD_le l m
        dsimp only
        refine ⟨rfl, ?_, ?_, ?_, ?_, ?_⟩
        · simp only [hkm]
          omega
        · simp only [hkm] at hrec ⊢
          omega
        · simp [hkm]
        · simp [hkm]
        · intro x
          by_cases hx : x = m
          · exact Or.inr hx
          · simp [hx]
      · rw [if_neg hrec]
        rw [hA3s] at hrec
        dsimp only
        refine ⟨hA1s ▸ hA2s ▸ hdiag, ?_, ?_, ?_, ?_, ?_⟩
        · rw [hA1s, hA3s]
          exact hrange
        · rw [hA3s]
        · rw [hA3s]
          simp only [hkm] at hrec
          omega
        · simp [hkm]
        · intro x
          by_cases hx : x = m
          · exact Or.inr hx
          · simp [hx]
    obtain ⟨hM1, hM2, hM3, hM4, hM5, hM6⟩ := hMfacts
    -- stage B: indices right of the diagonal cannot beat it either
    obtain ⟨hB1, hB2, hB3, hB4⟩ := foldInner_steady m st.j2 B stM
      (by
        intro j hj
        obtain ⟨hjm, hc⟩ := hmemB j hj
        have h1 := hkDDm j hc
        omega)
    rw [hstepm]
    refine ⟨?_, ?_, ?_, ?_, ?_, ?_⟩
    · rw [hB1, hB2]
      exact hM1
    · rw [hB1, hB3]
      exact hM2
    · intro j hj
      rw [hB3]
      rcases Nat.lt_or_ge j m with h | h
      · have := hdom j h
        omega
      · have : j = m := by omega
        subst this
        exact hM4
    · intro x
      rcases hB4 x with hx | ⟨hxB, hxv⟩
      · rw [hx]
        rcases hM6 x with hx2 | rfl
        · rw [hx2]
          rcases hA4 x with hx3 | ⟨hxA, hxv3⟩
          · rw [hx3]
            simp
          · rw [hxv3]
            exact hkDDj x (hmemA x hxA).2
        · rw [hM5]
      · rw [hxv]
        exact hkDDj x (hmemB x hxB).2
    · intro x
      have hgoal : (if m + 1 = 0 then 0 else DD l (m + 1 - 1)) = DD l m := by simp
      rw [hgoal]
      rcases hB4 x with hx | ⟨hxB, hxv⟩
      · rw [hx]
        rcases hM6 x with hx2 | rfl
        · rw [hx2]
          rcases hA4 x with hx3 | ⟨hxA, hxv3⟩
          · rw [hx3]
            simp
          · rw [hxv3]
            exact hkDDm x (hmemA x hxA).2
        · rw [hM5]
      · rw [hxv]
        exact hkDDm x (hmemB x hxB).2
    · intro _
      have hm1 : m + 1 - 1 = m := by omega
      rw [hm1]
      rcases hB4 m with hx | ⟨hxB, _⟩
      · rw [hx, hM5]
      · have := (hmemB m hxB).1
        omega

theorem flmOuter_self_aux (l : List Char) :
    ∀ m, m ≤ l.length →
      OuterInv l m ((List.range' 0 m).foldl (flmStep l (b2jGet l) 0 l.length)
        ⟨fun _ => 0, 0, 0, 0⟩) := by
  intro m
  induction m with
  | zero =>
      intro _
      exact ⟨rfl, by simp, fun j hj => absurd hj (by omega), fun x => by simp,
        fun x => by simp, fun h => absurd h (by omega)⟩
  | succ m ih =>
      intro hm
      have hsplit : List.range' 0 (m + 1) = List.range' 0 m ++ [m] := by
        have e1 : List.range' 0 m ++ List.range' (0 + m) 1 = List.range' 0 (1 + m) :=
          List.range'_append_1 0 m 1
        have e2 : List.range' (0 + m) 1 = [m] := by simp
        have e3 : 1 + m = m + 1 := by omega
        rw [e2, e3] at e1
        exact e1.symm
      rw [hsplit, List.foldl_append]
      have hstep := flmStep_inv l m (by omega)
        ((List.range' 0 m).foldl (flmStep l (b2jGet l) 0 l.length) ⟨fun _ => 0, 0, 0, 0⟩)
        (ih (by omega))
      simpa using hstep

theorem flmOuter_self (l : List Char) :
    OuterInv l l.length (flmOuter l (b2jGet l) 0 l.length 0 l.length) := by
  have h := flmOuter_self_aux l l.length le_rfl
  rw [flmOuter]
  simpa using h

theorem extNJBack_self (l : List Char) :
    ∀ (d : Nat) (bs f : Nat), d ≤ f →
      extNJBack l l (fun _ => false) 0 0 f (d, d, bs) = (0, 0, bs + d) := by
  intro d
  induction d with
  | zero =>
      intro bs f _
      cases f with
      | zero => rfl
      | succ f =>
          rw [extNJBack, if_neg (by simp)]
          simp
  | succ d ih =>
      intro bs f hf
      cases f with
      | zero => omega
      | succ f =>
          rw [extNJBack, if_pos (by simp)]
          have hd : d + 1 - 1 = d := by omega
          rw [hd]
          rw [ih (bs + 1) f (by omega)]
          congr 1
          congr 1
          omega

theorem extNJFwd_self (l : List Char) :
    ∀ (f B : Nat), B ≤ l.length → l.length - B ≤ f →
      extNJFwd l l (fun _ => false) l.length l.length f (0, 0, B) = (0, 0, l.length) := by
  intro f
  induction f with
  | zero =>
      intro B h1 h2
      have : B = l.length := by omega
      subst this
      rfl
  | succ f ih =>
      intro B h1 h2
      by_cases hB : B < l.length
      · rw [extNJFwd, if_pos (by simp [hB])]
        exact ih (B + 1) (by omega) (by omega)
      · have : B = l.length := by omega
        subst this
        rw [extNJFwd, if_neg (by simp)]

theorem extJBack_noop (aL bL : List Char) (alo blo f : Nat) (st : Nat × Nat × Nat) :
    extJBack aL bL (fun _ => false) alo blo f st = st := by
  cases f with
  | zero => rfl
  | succ f =>
      obtain ⟨bi, bj, bs⟩ := st
      rw [extJBack, if_neg (by simp)]

theorem extJFwd_noop (aL bL : List Char) (ahi bhi f : Nat) (st : Nat × Nat × Nat) :
    extJFwd aL bL (fun _ => false) ahi bhi f st = st := by
  cases f with
  | zero => rfl
  | succ f =>
      obtain ⟨bi, bj, bs⟩ := st
      rw [extJFwd, if_neg (by simp)]

theorem flm_self (l : List Char) :
    find_longest_match l l (b2jGet l) (fun _ => false) 0 l.length 0 l.length
      = (0, 0, l.length) := by
  obtain ⟨hdiag, hrange, _, _, _, _⟩ := flmOuter_self l
  rw [find_longest_match]
  set st := flmOuter l (b2jGet l) 0 l.length 0 l.length with hstdef
  have h1 : extNJBack l l (fun _ => false) 0 0 st.bi (st.bi, st.bj, st.bs)
      = (0, 0, st.bs + st.bi) := by
    rw [← hdiag]
    exact extNJBack_self l st.bi st.bs st.bi le_rfl
  rw [h1]
  have h2 : extNJFwd l l (fun _ => false) l.length l.length l.length
      (0, 0, st.bs + st.bi) = (0, 0, l.length) := by
    exact extNJFwd_self l l.length (st.bs + st.bi) (by omega) (by omega)
  rw [h2, extJBack_noop, extJFwd_noop]

theorem matchedSum_self (l : List Char) (f : Nat) :
    matchedSum l l (b2jGet l) (fun _ => false) (f + 1) 0 l.length 0 l.length
      = l.length := by
  rw [matchedSum, flm_self]
  by_cases h0 : l.length = 0
  · simp [h0]
  · rw [if_neg (by simpa using h0)]
    simp

/-- Claim C8, amended.  `fuzz_ratio(s, s) = 100` for every non-empty
string `s`; but `fuzz_ratio` is not symmetric: the greedy
longest-match decomposition of `difflib.SequenceMatcher` depends on the
argument order, and on `("x1y2z", "z3x4y")` the two orders give 40 and
20. -/
theorem c8_fuzz_ratio_reflexive_not_symmetric :
    (∀ s : String, s ≠ "" → fuzz_ratio s s = 100) ∧
    fuzz_ratio "x1y2z" "z3x4y" ≠ fuzz_ratio "z3x4y" "x1y2z" := by
  constructor
  · intro s hs
    have hdata : s.data ≠ [] := by
      intro hd
      apply hs
      ext1
      rw [hd]
    have hlen : 0 < (lowerL s.data).length := by
      rw [lowerL, List.length_map]
      exact List.length_pos.mpr hdata
    rw [fuzz_ratio]
    set l := lowerL s.data with hl
    have hT : l.length + l.length ≠ 0 := by omega
    rw [if_neg hT]
    have hM := matchedSum_self l (l.length + l.length)
    simp only [hM]
    have h200 : 200 * l.length = 100 * (l.length + l.length) := by ring
    rw [h200, Nat.mul_div_cancel 100 (by omega)]
  · decide

/-- Claim C8, counterexample to the claim as stated: symmetry fails. -/
theorem c8_counterexample :
    fuzz_ratio "x1y2z" "z3x4y" = 40 ∧ fuzz_ratio "z3x4y" "x1y2z" = 20 ∧
    fuzz_ratio "x1y2z" "z3x4y" ≠ fuzz_ratio "z3x4y" "x1y2z" := by
  refine ⟨by decide, by decide, by decide⟩

theorem c8_witness : fuzz_ratio "ab" "ab" = 100 :=
  c8_fuzz_ratio_reflexive_not_symmetric.1 "ab" (by decide)
